import Mathlib

/-!
Verification development for the seastar fragment: the temporary memory
allocator (`include/seastar/core/temporary_memory_allocator.hh`,
`src/core/temporary_memory_allocator.cc`), the LZ4 fragmented RPC compressor
(`rpc/lz4_fragmented_compressor.cc`), and the coroutine bridge
(`include/seastar/core/coroutines.hh`).

Machine addresses are modelled as natural numbers (0 plays the role of the
null pointer).  The signed 32-bit use counters are modelled as `Int`: they
count objects inside one 128 KiB block, so their magnitude is bounded by
`block_size / alignment < 2^31` under the allocator's contract and 32-bit
wraparound never occurs.
-/

/-! ## Temporary memory allocator -/

/-- Source: `__STDCPP_DEFAULT_NEW_ALIGNMENT__` (16 on the x86-64 System V
platform this code targets). -/
def alignment : Nat := 16

/-- Source: `block_size = 128 * 1024`. -/
def block_size : Nat := 128 * 1024

/-- Source: `max_object_size = 32 * 1024`. -/
def max_object_size : Nat := 32 * 1024

/-- Size of `struct alignas(alignment) block_header { int32_t _use_count; }`:
the `alignas` pads the single `int32_t` to 16 bytes. -/
def block_header_size : Nat := 16

/-- Source: `align_up(x, a)` from `seastar/core/align.hh`; `a` is a power of
two in every use, for which `(x + a - 1) & ~(a - 1) = (x + a - 1) / a * a`. -/
def align_up (x a : Nat) : Nat := (x + a - 1) / a * a

/-- Source: `align_down(x, a) = x & ~(a - 1)` for a power of two `a`. -/
def align_down (x a : Nat) : Nat := x / a * a

/-- The only allocation failure the allocator surfaces: `std::bad_alloc`. -/
inductive alloc_error where
  | bad_alloc
deriving DecidableEq

/-- State of one `temporary_memory_allocator` instance together with the
heap of live blocks.  `blocks` maps a block base address to the value of the
`_use_count` field of the `block_header` stored at that address; a block that
has been returned to the system (or never allocated) is mapped to `none`. -/
structure TMAState where
  current : Option Nat
  position_in_current : Nat
  current_end : Nat
  current_use_count : Int
  blocks : Nat → Option Int

/-- A default-constructed allocator: all pointers null, counter zero. -/
def TMAState.init : TMAState :=
  { current := none
    position_in_current := 0
    current_end := 0
    current_use_count := 0
    blocks := fun _ => none }

/-- Pointwise update of the block heap. -/
def setBlock (f : Nat → Option Int) (b : Nat) (v : Option Int) : Nat → Option Int :=
  fun a => if a = b then v else f a

/-- Source: `temporary_memory_allocator::close_current` (the .cc file).  If a
current block exists, its header receives the running allocation count; the
block is freed if the sum is zero; `_current`, `_position_in_current` and
`_current_use_count` are reset (`_current_end` is left as it was). -/
def close_current (st : TMAState) : TMAState :=
  match st.current with
  | none => st
  | some b =>
    let c : Int := (st.blocks b).getD 0 + st.current_use_count
    { current := none
      position_in_current := 0
      current_end := st.current_end
      current_use_count := 0
      blocks := setBlock st.blocks b (if c = 0 then none else some c) }

/-- Source: `temporary_memory_allocator::allocate_new_block`.  The system
allocator `::aligned_alloc(block_size, block_size)` is modelled by the
`resp` argument: `none` means it returned null (then `std::bad_alloc` is
thrown before anything is mutated), `some block` means it returned the
`block_size`-aligned address `block`.  On success the current block is
closed, a header with `_use_count = 0` is placement-new'ed at offset 0, and
the first allocation is carved out right after the header. -/
def allocate_new_block (st : TMAState) (size : Nat) (resp : Option Nat) :
    Except alloc_error (Nat × TMAState) :=
  match resp with
  | none => .error .bad_alloc
  | some block =>
    let st1 := close_current st
    .ok (block + block_header_size,
      { current := some block
        position_in_current := block + block_header_size + align_up size alignment
        current_end := block + block_size
        current_use_count := 1
        blocks := setBlock st1.blocks block (some 0) })

/-- Source: `temporary_memory_allocator::allocate_large_object`.
`::posix_memalign(&ptr, block_size, sizeof(block_header) + size)` is modelled
by `resp` exactly as in `allocate_new_block`.  The header's `_use_count` is
set to 1; the allocator's bump state is untouched. -/
def allocate_large_object (st : TMAState) (resp : Option Nat) :
    Except alloc_error (Nat × TMAState) :=
  match resp with
  | none => .error .bad_alloc
  | some block =>
    .ok (block + block_header_size,
      { st with blocks := setBlock st.blocks block (some 1) })

/-- Source: `temporary_memory_allocator::alloc` (the header file).  `resp` is
consulted only on the paths that call the system allocator. -/
def alloc (st : TMAState) (size : Nat) (resp : Option Nat) :
    Except alloc_error (Nat × TMAState) :=
  if max_object_size < size then
    allocate_large_object st resp
  else if st.current_end < st.position_in_current + size then
    allocate_new_block st size resp
  else
    .ok (st.position_in_current,
      { st with
        position_in_current := align_up (st.position_in_current + size) alignment
        current_use_count := st.current_use_count + 1 })

/-- Source: `temporary_memory_allocator::free(void*)`.  The header is found
by aligning the pointer down to `block_size`; its counter is decremented and
the block is returned to the system exactly when the decremented value is
zero.  (Reading a header of a non-live block is undefined behaviour in the
source; the model reads 0 there.) -/
def free (st : TMAState) (p : Nat) : TMAState :=
  let hdr := align_down p block_size
  let c : Int := (st.blocks hdr).getD 0 - 1
  { st with blocks := setBlock st.blocks hdr (if c = 0 then none else some c) }

/-- One client-visible operation on the allocator.  An `alloc` op carries the
system allocator's response for the (at most one) system call it makes. -/
inductive TMAOp where
  | alloc (size : Nat) (resp : Option Nat)
  | free (ptr : Nat)

/-- The system allocator hands out `block_size`-aligned non-null blocks;
this is the only property of `resp` the bump-state invariants need. -/
def RespAligned : TMAOp → Prop
  | .alloc _ (some b) => b % block_size = 0 ∧ 0 < b
  | _ => True

instance : DecidablePred RespAligned := by
  intro op
  unfold RespAligned
  match op with
  | .alloc _ (some _) => exact inferInstanceAs (Decidable (_ ∧ _))
  | .alloc _ none => exact inferInstanceAs (Decidable True)
  | .free _ => exact inferInstanceAs (Decidable True)

/-- Effect of one operation on the state; a failed `alloc` (the constructor
threw `std::bad_alloc` before mutating anything) leaves the state as it was. -/
def stepOp (st : TMAState) (op : TMAOp) : TMAState :=
  match op with
  | .alloc size resp =>
    match alloc st size resp with
    | .ok (_, st') => st'
    | .error _ => st
  | .free p => free st p

/-- Run a sequence of operations from a state. -/
def runOps (st : TMAState) (ops : List TMAOp) : TMAState :=
  ops.foldl stepOp st

/-- The pointer component of an `alloc` result. -/
def allocPtr (r : Except alloc_error (Nat × TMAState)) : Option Nat :=
  match r with
  | .ok (p, _) => some p
  | .error _ => none

/-- The state component of an `alloc` result. -/
def allocSt (r : Except alloc_error (Nat × TMAState)) : Option TMAState :=
  match r with
  | .ok (_, st) => some st
  | .error _ => none

/-- Reachability invariant of the bump state: an open block is aligned,
non-null, and the bump position stays inside it, past the header, aligned to
`alignment`; with no open block the bump pointers are null. -/
structure TMAInv (st : TMAState) : Prop where
  open_block : ∀ b, st.current = some b →
    b % block_size = 0 ∧ 0 < b ∧
    b + block_header_size ≤ st.position_in_current ∧
    st.position_in_current ≤ b + block_size ∧
    st.current_end = b + block_size ∧
    st.position_in_current % alignment = 0
  no_block : st.current = none → st.position_in_current = 0 ∧ st.current_end = 0

/-! ## LZ4 fragmented compressor

Bytes are modelled as natural numbers (< 256 for genuine data).  The external
LZ4 streaming library (`LZ4_compress_fast_continue`,
`LZ4_decompress_safe_continue`) is not part of this repository; it is
abstracted by the `LZ4` structure below.  A stream's dictionary state is made
explicit as the list of chunks already processed within the current frame
(both streams are reset at every frame boundary). -/

/-- Source: `chunk_header_size = sizeof(uint32_t)`. -/
def chunk_header_size : Nat := 4

/-- Source: `chunk_size = 128 * 1024`. -/
def chunk_size : Nat := 128 * 1024

/-- Source: `last_chunk_flag = uint32_t(1) << 31`. -/
def last_chunk_flag : Nat := 2 ^ 31

/-- Source: `LZ4_COMPRESSBOUND(n) = n + n/255 + 16`. -/
def compressBound (n : Nat) : Nat := n + n / 255 + 16

/-- The 4-byte little-endian encoding of a 32-bit value (`write_le`). -/
def le4 (v : Nat) : List Nat := [v % 256, v / 256 % 256, v / 65536 % 256, v / 16777216 % 256]

/-- Little-endian read of the first four bytes (`le_to_cpu` after copying
4 bytes; reading past the end of the input is undefined behaviour in the
source, the model reads zeros there). -/
def readLE4 (bs : List Nat) : Nat :=
  bs.getD 0 0 + 256 * bs.getD 1 0 + 65536 * bs.getD 2 0 + 16777216 * bs.getD 3 0

/-- Total number of bytes of a scatter-gather buffer (`snd_buf::size` /
`rcv_buf::size`, which the callers keep equal to the sum of the segment
sizes). -/
def totalSize (segs : List (List Nat)) : Nat := (segs.map List.length).sum

/-- Abstraction of the external streaming LZ4 codec.  `comp hist s` is the
compressed image of chunk `s` when the chunks `hist` were already compressed
in this frame; `decomp hist b cap` decompresses `b` (with the dictionary
built from the already-decompressed chunks `hist`) into a buffer of capacity
`cap`, returning `none` when the library reports a negative status.  The two
laws are the library's contract: compression respects `LZ4_COMPRESSBOUND`,
and decompression inverts compression run with the same dictionary. -/
structure LZ4 where
  comp : List (List Nat) → List Nat → List Nat
  decomp : List (List Nat) → List Nat → Nat → Option (List Nat)
  comp_bound : ∀ hist s, (comp hist s).length ≤ compressBound s.length
  decomp_comp : ∀ hist s cap, s.length ≤ cap → decomp hist (comp hist s) cap = some s

/-- A trivial model of the LZ4 library (compression is the identity), used to
instantiate theorems at concrete inputs. -/
def idLZ4 : LZ4 where
  comp := fun _ s => s
  decomp := fun _ b _ => some b
  comp_bound := fun _ s => by show s.length ≤ compressBound s.length; unfold compressBound; omega
  decomp_comp := fun _ _ _ _ => rfl

/-- The scatter-gather convention the codec assumes of its input (asserted in
the source): every segment except possibly the last is exactly `chunk_size`
bytes long, the last is at most `chunk_size`. -/
def scatter_gather : List (List Nat) → Bool
  | [] => true
  | [s] => s.length ≤ chunk_size
  | s :: rest => s.length = chunk_size && scatter_gather rest

/-- The sequence of `(header value, chunk payload)` pairs the generic path of
`compress` emits.  Source lines 114-129: while more than `chunk_size` bytes
remain, the current (exactly `chunk_size`-byte) segment is compressed and
written with header value = compressed size; the remaining at most
`chunk_size` bytes are compressed and written with header value
`last_chunk_flag | src_left` (the flag is addition here since every size the
format can carry is below `2^31`).  The `([], src_left > chunk_size)` case
is unreachable under the input convention (the source would read past the
end of the input there). -/
def compressChunks (m : LZ4) : List (List Nat) → List (List Nat) → Nat → List (Nat × List Nat)
  | hist, s :: rest, srcLeft =>
    if chunk_size < srcLeft then
      ((m.comp hist s).length, m.comp hist s) ::
        compressChunks m (hist ++ [s]) rest (srcLeft - chunk_size)
    else
      [(last_chunk_flag + srcLeft, m.comp hist (s.take srcLeft))]
  | hist, [], srcLeft =>
    if chunk_size < srcLeft then []
    else [(last_chunk_flag + srcLeft, m.comp hist [])]

/-- On-wire image of a chunk sequence: each chunk is its 4-byte little-endian
header followed by its payload. -/
def wire (chunks : List (Nat × List Nat)) : List Nat :=
  (chunks.map (fun hc => le4 hc.1 ++ hc.2)).flatten

/-- State of the output writer of `compress`'s generic path: the closed
output segments, the segment currently being filled (its full backing
buffer), and the write offset inside it (`dst_buffers` / `dst_offset`). -/
structure WriterState where
  done : List (List Nat)
  cur : List Nat
  off : Nat

/-- One byte of `write_chunk_to_dst` (source lines 96-112; the `copy_n` runs
are modelled byte by byte).  When the current segment is full a fresh
`chunk_size` segment is started; fresh buffers are uninitialised, modelled
as filled with the arbitrary byte `fill`. -/
def writeByte (fill b : Nat) (st : WriterState) : WriterState :=
  let st :=
    if st.off = st.cur.length then
      { done := st.done ++ [st.cur], cur := List.replicate chunk_size fill, off := 0 }
    else st
  { done := st.done, cur := st.cur.set st.off b, off := st.off + 1 }

/-- Write a run of bytes. -/
def writeBytes (fill : Nat) (st : WriterState) (bs : List Nat) : WriterState :=
  bs.foldl (fun s b => writeByte fill b s) st

/-- The generic path's output assembly: the first segment is
`max(head_space, chunk_size)` bytes and writing starts at offset
`head_space`; at the end the segment being filled is trimmed to the write
offset (source lines 91-94 and 131-137). -/
def writeAll (fill head_space : Nat) (bs : List Nat) : List (List Nat) :=
  let st := writeBytes fill
    { done := [], cur := List.replicate (max head_space chunk_size) fill, off := head_space } bs
  st.done ++ [st.cur.take st.off]

/-- Source: `lz4_fragmented_compressor::compress`.  `fill` is the content of
freshly allocated (uninitialised) output buffers; the codec never reads it
and a caller sees it wherever the codec did not write.  The fast path
(source lines 74-85) emits head space, one last-chunk header and the
compressed bytes into a single trimmed buffer; the generic path streams the
chunk sequence through the segment writer. -/
def compress (m : LZ4) (fill head_space : Nat) (data : List (List Nat)) : List (List Nat) :=
  if compressBound (totalSize data) + head_space + chunk_header_size ≤ chunk_size ∧
      totalSize data ≤ chunk_size then
    [List.replicate head_space fill ++ le4 (last_chunk_flag + totalSize data) ++
      m.comp [] ((data.headD []).take (totalSize data))]
  else
    writeAll fill head_space (wire (compressChunks m [] data (totalSize data)))

/-- Failures of `decompress` (`throw std::runtime_error(...)` in the
source). -/
inductive frame_error where
  | frame
deriving DecidableEq

/-- Decompressed bytes written into a fresh buffer of `cap` bytes: the
buffer keeps size `cap`; bytes past the decompressed length are
uninitialised, modelled as zeros.  (On every path proved below the
decompressed length equals `cap`.) -/
def fit (cap : Nat) (bs : List Nat) : List Nat :=
  bs.take cap ++ List.replicate (cap - bs.length) 0

/-- The header walk of `decompress` (source lines 204-230) on the flattened
input (`copy_src` reads the segments strictly sequentially): intermediate
headers (bit 31 clear) carry the compressed size of the chunk that follows
and decompress into a `chunk_size` segment; the final header (bit 31 set)
carries the decompressed size, its payload being everything that remains.
`fuel` only forces termination; each step consumes at least the 4 header
bytes, so `fuel = ` total input size never runs out. -/
def decompressChunks (m : LZ4) :
    Nat → List (List Nat) → List Nat → Except frame_error (List (List Nat))
  | 0, _, _ => .error .frame
  | fuel + 1, hist, bytes =>
    if readLE4 bytes < last_chunk_flag then
      match m.decomp hist ((bytes.drop chunk_header_size).take (readLE4 bytes)) chunk_size with
      | none => .error .frame
      | some res =>
        match decompressChunks m fuel (hist ++ [res])
            ((bytes.drop chunk_header_size).drop (readLE4 bytes)) with
        | .error e => .error e
        | .ok segs => .ok (fit chunk_size res :: segs)
    else
      match m.decomp hist (bytes.drop chunk_header_size) (readLE4 bytes - last_chunk_flag) with
      | none => .error .frame
      | some res => .ok [fit (readLE4 bytes - last_chunk_flag) res]

/-- Source: `lz4_fragmented_compressor::decompress`.  Inputs shorter than 4
bytes yield an empty `rcv_buf` (source lines 141-143).  A single-segment
input whose first header has bit 31 set takes the fast path (one chunk
decompressed straight into its output buffer); everything else walks the
headers.  The stream reset at the top succeeds in this model (its failure is
a state of the external library, not of the frame). -/
def decompress (m : LZ4) (data : List (List Nat)) : Except frame_error (List (List Nat)) :=
  if totalSize data < chunk_header_size then .ok []
  else
    match data with
    | [s] =>
      if last_chunk_flag ≤ readLE4 s then
        match m.decomp [] (s.drop chunk_header_size) (readLE4 s - last_chunk_flag) with
        | none => .error .frame
        | some res => .ok [fit (readLE4 s - last_chunk_flag) res]
      else decompressChunks m (totalSize data) [] s
    | _ => decompressChunks m (totalSize data) [] data.flatten

/-- Framing invariant of the wire format: at least one chunk; every chunk
before the last has bit 31 clear and header value equal to the length of the
payload that follows it; the last chunk has bit 31 set (and its 31-bit
payload is a size below `2^31`). -/
def WellFramed (chunks : List (Nat × List Nat)) : Prop :=
  chunks ≠ [] ∧
  (∀ hc ∈ chunks.dropLast, hc.1 < last_chunk_flag ∧ hc.1 = hc.2.length) ∧
  (∀ hc, chunks.getLast? = some hc → last_chunk_flag ≤ hc.1 ∧ hc.1 < 2 * last_chunk_flag)

/-! ## Coroutine bridge -/

/-- Modelled from the spec: the shared state of a `seastar::promise` /
`seastar::future` pair (`seastar/core/future.hh` is not among the sources;
§3 and §4.D of the specification describe it as a one-shot cell holding an
untaken value, an exception, or not-yet-ready).  `α` is the value tuple,
`ε` the exception type. -/
inductive FutureState (α ε : Type) where
  | pending
  | ready_value (v : α)
  | ready_exception (e : ε)

/-- Modelled from the spec: `promise::set_value` transitions the shared state
from pending to ready-with-value (setting an already-set promise is a
contract violation; the model leaves the state unchanged). -/
def FutureState.set_value {α ε} (st : FutureState α ε) (v : α) : FutureState α ε :=
  match st with
  | .pending => .ready_value v
  | s => s

/-- Modelled from the spec: `promise::set_exception` transitions the shared
state from pending to ready-with-exception. -/
def FutureState.set_exception {α ε} (st : FutureState α ε) (e : ε) : FutureState α ε :=
  match st with
  | .pending => .ready_exception e
  | s => s

/-- Source: `promise_type::return_value` (`coroutines.hh` lines 108-111)
forwards the co_returned value to the embedded promise's `set_value`. -/
def promise_type_return_value {α ε} (st : FutureState α ε) (v : α) : FutureState α ε :=
  st.set_value v

/-- Source: `promise_type::unhandled_exception` (`coroutines.hh` lines
112-114) captures the in-flight exception (`std::current_exception()`, here
the explicit argument `e`) and forwards it to the embedded promise's
`set_exception`. -/
def promise_type_unhandled_exception {α ε} (st : FutureState α ε) (e : ε) : FutureState α ε :=
  st.set_exception e

/-- Outcome of running a coroutine body to completion against the embedded
promise obtained from `get_return_object` (still pending when the body
finishes).  A body that returns `v` reaches `return_value`; a body that
throws `e` reaches `unhandled_exception`. -/
def coroutine_outcome {α ε} (body : Except ε α) : FutureState α ε :=
  match body with
  | .ok v => promise_type_return_value .pending v
  | .error e => promise_type_unhandled_exception .pending e

/-- A sample allocator state used to instantiate theorems: one open block at
address `block_size` holding three live allocations not yet posted to the
header, whose counter records one early deallocation. -/
def stA : TMAState :=
  { current := some block_size
    position_in_current := block_size + 48
    current_end := block_size + block_size
    current_use_count := 3
    blocks := setBlock (fun _ => none) block_size (some (-1)) }

/-- Invariant of the output writer: the offset stays inside the current
segment, and before any segment is closed the offset never drops below the
reserved head space, which is also covered by the first closed segment. -/
def WInv (head_space : Nat) (st : WriterState) : Prop :=
  st.off ≤ st.cur.length ∧
  (st.done = [] → head_space ≤ st.off) ∧
  (∀ hd, st.done.head? = some hd → head_space ≤ hd.length)

/-- Bytes committed so far: the closed segments plus the filled prefix of
the current one. -/
def joinW (st : WriterState) : List Nat :=
  st.done.flatten ++ st.cur.take st.off

/-! ## Arithmetic helper lemmas -/

theorem align_up_ge (x : Nat) {a : Nat} (ha : 0 < a) : x ≤ align_up x a := by
  unfold align_up
  have h := Nat.lt_mul_div_succ (x + a - 1) ha
  rw [Nat.mul_comm, Nat.add_mul, one_mul] at h
  generalize (x + a - 1) / a * a = Q at *
  omega

theorem align_up_le {x y a : Nat} (ha : 0 < a) (hxy : x ≤ y) (hy : y % a = 0) :
    align_up x a ≤ y := by
  unfold align_up
  obtain ⟨m, rfl⟩ := Nat.dvd_of_mod_eq_zero hy
  have h1 : x + a - 1 ≤ a * m + (a - 1) := by omega
  have h2 : (x + a - 1) / a ≤ (a * m + (a - 1)) / a := Nat.div_le_div_right h1
  have h3 : (a * m + (a - 1)) / a = m := by
    rw [Nat.add_comm, Nat.add_mul_div_left _ _ ha, Nat.div_eq_of_lt (by omega)]
    omega
  calc (x + a - 1) / a * a ≤ m * a := Nat.mul_le_mul_right a (h3 ▸ h2)
    _ = a * m := Nat.mul_comm m a

theorem align_up_mod (x a : Nat) : align_up x a % a = 0 := Nat.mul_mod_left _ _

theorem mod_add_of_lt {b r m : Nat} (hb : b % m = 0) (hr : r < m) : (b + r) % m = r := by
  obtain ⟨k, rfl⟩ := Nat.dvd_of_mod_eq_zero hb
  rw [Nat.mul_add_mod]
  exact Nat.mod_eq_of_lt hr

theorem alignment_dvd_of_block_aligned {b : Nat} (hb : b % block_size = 0) :
    b % alignment = 0 := by
  have h16 : (alignment : Nat) ∣ b :=
    dvd_trans (by decide : (alignment : Nat) ∣ block_size) (Nat.dvd_of_mod_eq_zero hb)
  exact Nat.mod_eq_zero_of_dvd h16


/-! ## Allocator invariants -/

theorem tma_inv_init : TMAInv TMAState.init := by
  constructor
  · intro b hb
    exact absurd hb (by simp [TMAState.init])
  · intro _
    exact ⟨rfl, rfl⟩

theorem tma_alloc_ok_inv {st : TMAState} (hinv : TMAInv st) {size : Nat} {resp : Option Nat}
    {p : Nat} {st' : TMAState} (hop : RespAligned (.alloc size resp))
    (h : alloc st size resp = .ok (p, st')) : TMAInv st' := by
  unfold alloc at h
  split at h
  · -- large-object path: the bump state is untouched
    unfold allocate_large_object at h
    cases resp with
    | none => exact Except.noConfusion h
    | some b =>
      rw [Except.ok.injEq, Prod.mk.injEq] at h
      obtain ⟨-, hst⟩ := h
      subst hst
      exact ⟨fun b' hb' => hinv.open_block b' hb', fun hn => hinv.no_block hn⟩
  · rename_i hle
    split at h
    · -- new-block path
      rename_i hpath
      unfold allocate_new_block at h
      cases resp with
      | none => exact Except.noConfusion h
      | some b =>
        obtain ⟨hbmod, hbpos⟩ := hop
        rw [Except.ok.injEq, Prod.mk.injEq] at h
        obtain ⟨-, hst⟩ := h
        subst hst
        constructor
        · intro b' hb'
          cases hb'
          dsimp only
          have hb16 : b % alignment = 0 := alignment_dvd_of_block_aligned hbmod
          have hau : align_up size alignment ≤ max_object_size :=
            align_up_le (by decide) (by omega) (by decide)
          have ham : align_up size alignment % alignment = 0 := align_up_mod _ _
          refine ⟨hbmod, hbpos, Nat.le_add_right _ _, ?_, rfl, ?_⟩
          · have : max_object_size + block_header_size ≤ block_size := by decide
            omega
          · simp only [alignment, block_header_size] at *
            omega
        · intro hn
          exact Option.noConfusion hn
    · -- bump path
      rename_i hpath
      rw [Except.ok.injEq, Prod.mk.injEq] at h
      obtain ⟨-, hst⟩ := h
      subst hst
      constructor
      · intro b hb
        obtain ⟨hbmod, hbpos, hlo, hhi, hend, hmod⟩ := hinv.open_block b hb
        dsimp only
        have hb16 : b % alignment = 0 := alignment_dvd_of_block_aligned hbmod
        have hge := align_up_ge (st.position_in_current + size) (show 0 < alignment by decide)
        have hle2 : align_up (st.position_in_current + size) alignment ≤ b + block_size := by
          refine align_up_le (by decide) (by omega) ?_
          have : block_size % alignment = 0 := by decide
          simp only [alignment] at *
          omega
        refine ⟨hbmod, hbpos, by omega, hle2, hend, align_up_mod _ _⟩
      · intro hn
        obtain ⟨hp0, he0⟩ := hinv.no_block hn
        have hsz : size = 0 := by omega
        dsimp only
        refine ⟨?_, he0⟩
        rw [hp0, hsz]
        decide

theorem tma_stepOp_inv {st : TMAState} (hinv : TMAInv st) (op : TMAOp)
    (hop : RespAligned op) : TMAInv (stepOp st op) := by
  cases op with
  | free p =>
    exact ⟨fun b hb => hinv.open_block b hb, fun hn => hinv.no_block hn⟩
  | alloc size resp =>
    simp only [stepOp]
    cases h : alloc st size resp with
    | error e => exact hinv
    | ok v =>
      obtain ⟨p, st'⟩ := v
      exact tma_alloc_ok_inv hinv hop h

theorem tma_runOps_inv_aux (ops : List TMAOp) (hops : ∀ op ∈ ops, RespAligned op)
    (st : TMAState) (hinv : TMAInv st) : TMAInv (runOps st ops) := by
  induction ops generalizing st with
  | nil => exact hinv
  | cons op rest ih =>
    exact ih (fun o ho => hops o (List.mem_cons_of_mem _ ho)) (stepOp st op)
      (tma_stepOp_inv hinv op (hops op (List.mem_cons_self _ _)))

theorem tma_runOps_inv (ops : List TMAOp) (hops : ∀ op ∈ ops, RespAligned op) :
    TMAInv (runOps TMAState.init ops) :=
  tma_runOps_inv_aux ops hops TMAState.init tma_inv_init

theorem tma_alloc_pos {st : TMAState} (hinv : TMAInv st) {size : Nat} {resp : Option Nat}
    {p : Nat} {st' : TMAState} (h1 : 1 ≤ size)
    (h : alloc st size resp = .ok (p, st')) : 0 < p := by
  unfold alloc at h
  split at h
  · unfold allocate_large_object at h
    cases resp with
    | none => exact Except.noConfusion h
    | some b =>
      rw [Except.ok.injEq, Prod.mk.injEq] at h
      have : block_header_size ≤ p := by omega
      have : 0 < block_header_size := by decide
      omega
  · split at h
    · unfold allocate_new_block at h
      cases resp with
      | none => exact Except.noConfusion h
      | some b =>
        rw [Except.ok.injEq, Prod.mk.injEq] at h
        have : 0 < block_header_size := by decide
        omega
    · rename_i hpath
      rw [Except.ok.injEq, Prod.mk.injEq] at h
      obtain ⟨hp, -⟩ := h
      cases hcur : st.current with
      | none =>
        obtain ⟨hp0, he0⟩ := hinv.no_block hcur
        omega
      | some b =>
        obtain ⟨-, hbpos, hlo, -, -, -⟩ := hinv.open_block b hcur
        have : 0 < block_header_size := by decide
        omega

theorem tma_alloc_offset {st : TMAState} (hinv : TMAInv st) {size : Nat} {resp : Option Nat}
    {p : Nat} {st' : TMAState} (hop : RespAligned (.alloc size resp))
    (h1 : 1 ≤ size) (h2 : size ≤ max_object_size)
    (h : alloc st size resp = .ok (p, st')) :
    block_header_size ≤ p % block_size ∧ p % block_size ≤ block_size - size ∧
    p % alignment = 0 := by
  unfold alloc at h
  split at h
  · rename_i hgt
    exact absurd hgt (by omega)
  · split at h
    · -- new-block path: the returned pointer sits right after the header
      unfold allocate_new_block at h
      cases resp with
      | none => exact Except.noConfusion h
      | some b =>
        obtain ⟨hbmod, hbpos⟩ := hop
        rw [Except.ok.injEq, Prod.mk.injEq] at h
        obtain ⟨hp, -⟩ := h
        have hmod : (b + block_header_size) % block_size = block_header_size :=
          mod_add_of_lt hbmod (by decide)
        have hb16 : b % alignment = 0 := alignment_dvd_of_block_aligned hbmod
        refine ⟨?_, ?_, ?_⟩
        · rw [← hp]
          omega
        · rw [← hp]
          have : max_object_size + block_header_size ≤ block_size := by decide
          omega
        · rw [← hp]
          simp only [alignment, block_header_size] at *
          omega
    · -- bump path: the pointer is the previous bump position
      rename_i hpath
      rw [Except.ok.injEq, Prod.mk.injEq] at h
      obtain ⟨hp, -⟩ := h
      subst hp
      cases hcur : st.current with
      | none =>
        obtain ⟨hp0, he0⟩ := hinv.no_block hcur
        omega
      | some b =>
        obtain ⟨hbmod, hbpos, hlo, hhi, hend, hpm⟩ := hinv.open_block b hcur
        have hbs : block_header_size < block_size := by decide
        have hr : st.position_in_current - b < block_size := by omega
        have hmod : (b + (st.position_in_current - b)) % block_size =
            st.position_in_current - b := mod_add_of_lt hbmod hr
        rw [show b + (st.position_in_current - b) = st.position_in_current by omega] at hmod
        simp only [alignment] at hpm ⊢
        refine ⟨by omega, by omega, by omega⟩

/-! ## Claim theorems: allocator -/

/-- C2: `free(p)` computes the block header as `p` aligned down to
`block_size`, decrements the header's signed `_use_count` by one, and
returns the block to the system exactly when the decremented counter is
zero; `close_current`, when a current block exists, adds the allocator's
`_current_use_count` to that header counter, frees the block immediately if
the resulting sum is zero, and resets the allocator state (no current
block, bump position and count cleared). -/
theorem c2_free_close_current :
    (∀ (st : TMAState) (p : Nat) (c : Int),
      st.blocks (align_down p block_size) = some c →
      (free st p).current = st.current ∧
      (free st p).position_in_current = st.position_in_current ∧
      (free st p).current_end = st.current_end ∧
      (free st p).current_use_count = st.current_use_count ∧
      (free st p).blocks (align_down p block_size) =
        (if c - 1 = 0 then none else some (c - 1)) ∧
      (∀ a, a ≠ align_down p block_size → (free st p).blocks a = st.blocks a)) ∧
    (∀ (st : TMAState) (b : Nat) (c : Int),
      st.current = some b → st.blocks b = some c →
      (close_current st).current = none ∧
      (close_current st).position_in_current = 0 ∧
      (close_current st).current_use_count = 0 ∧
      (close_current st).blocks b =
        (if c + st.current_use_count = 0 then none
         else some (c + st.current_use_count)) ∧
      (∀ a, a ≠ b → (close_current st).blocks a = st.blocks a)) := by
  constructor
  · intro st p c hc
    refine ⟨rfl, rfl, rfl, rfl, ?_, ?_⟩
    · simp [free, setBlock, hc]
    · intro a ha
      simp [free, setBlock, ha]
  · intro st b c hcur hc
    have hcc : close_current st =
        { current := none
          position_in_current := 0
          current_end := st.current_end
          current_use_count := 0
          blocks := setBlock st.blocks b
            (if (st.blocks b).getD 0 + st.current_use_count = 0 then none
             else some ((st.blocks b).getD 0 + st.current_use_count)) } := by
      simp only [close_current, hcur]
    rw [hcc]
    refine ⟨rfl, rfl, rfl, ?_, ?_⟩
    · simp [setBlock, hc]
    · intro a ha
      simp [setBlock, ha]

/-- Witness for C2, at the sample state `stA`: freeing the pointer
`block_size + 16` drives the open block's header from -1 to -2 (no release),
and closing the current block posts the three live allocations, leaving
counter 2 and a cleared bump state. -/
theorem c2_free_close_current_witness :
    (free stA (block_size + 16)).blocks (align_down (block_size + 16) block_size) =
      (if (-1 : Int) - 1 = 0 then none else some ((-1 : Int) - 1)) ∧
    (close_current stA).current = none ∧
    (close_current stA).blocks block_size =
      (if (-1 : Int) + stA.current_use_count = 0 then none
       else some ((-1 : Int) + stA.current_use_count)) :=
  ⟨(c2_free_close_current.1 stA (block_size + 16) (-1) (by decide)).2.2.2.2.1,
   (c2_free_close_current.2 stA block_size (-1) rfl (by decide)).1,
   (c2_free_close_current.2 stA block_size (-1) rfl (by decide)).2.2.2.1⟩

/-- C3 counterexample: on a fresh allocator, `alloc(0)` takes the bump path
(`end_pos = 0` is not past `_current_end = 0`) and returns the null bump
position, so `alloc` can return null without raising `bad_alloc`. -/
theorem c3_counterexample : allocPtr (alloc TMAState.init 0 none) = some 0 := rfl

/-- C3 (amended): for every size argument of at least 1 byte, on any
reachable allocator state, `alloc` either fails with `bad_alloc` or returns
a non-null pointer. -/
theorem c3_alloc_nonnull (ops : List TMAOp) (hops : ∀ op ∈ ops, RespAligned op)
    (size : Nat) (resp : Option Nat) (h1 : 1 ≤ size) :
    (∀ e, alloc (runOps TMAState.init ops) size resp = .error e → e = .bad_alloc) ∧
    (∀ p, allocPtr (alloc (runOps TMAState.init ops) size resp) = some p → 0 < p) := by
  constructor
  · intro e _
    cases e
    rfl
  · intro p hp
    have hinv := tma_runOps_inv ops hops
    cases h : alloc (runOps TMAState.init ops) size resp with
    | error e =>
      rw [h] at hp
      exact absurd hp (by simp [allocPtr])
    | ok v =>
      obtain ⟨q, st'⟩ := v
      rw [h] at hp
      simp only [allocPtr, Option.some.injEq] at hp
      subst hp
      exact tma_alloc_pos hinv h1 h

/-- Witness for the amended C3: a 16-byte allocation on a fresh allocator. -/
theorem c3_alloc_nonnull_witness :
    (∀ op ∈ ([] : List TMAOp), RespAligned op) ∧ 1 ≤ 16 ∧
    ((∀ e, alloc (runOps TMAState.init []) 16 none = .error e → e = .bad_alloc) ∧
     (∀ p, allocPtr (alloc (runOps TMAState.init []) 16 none) = some p → 0 < p)) :=
  ⟨by decide, by decide, c3_alloc_nonnull [] (by decide) 16 none (by decide)⟩

/-- C5 counterexample: after `alloc(16)` forces a fresh block at address
`block_size`, the bump position is `block_size + block_header_size +
align_up(16, alignment) = 131104`, not immediately after the header
(`block_size + block_header_size = 131088`). -/
theorem c5_counterexample :
    (allocSt (alloc TMAState.init 16 (some block_size))).map
        TMAState.position_in_current = some 131104 ∧
    (131104 : Nat) ≠ block_size + block_header_size :=
  ⟨rfl, by decide⟩

/-- C5 (amended): an `alloc(size)` with `size ≤ max_object_size` whose end
exceeds the current block end closes the current block, adopts the fresh
`block_size`-aligned block supplied by the system allocator, places a header
with zero count at its offset 0, sets the bump position to the header end
plus `align_up(size, alignment)` (immediately after the first allocation),
sets `_current_use_count` to 1, and returns the address immediately after
the header. -/
theorem c5_new_block (st : TMAState) (size b : Nat)
    (hsz : size ≤ max_object_size)
    (hpath : st.current_end < st.position_in_current + size) :
    alloc st size (some b) = .ok (b + block_header_size,
      { current := some b
        position_in_current := b + block_header_size + align_up size alignment
        current_end := b + block_size
        current_use_count := 1
        blocks := setBlock (close_current st).blocks b (some 0) }) := by
  unfold alloc allocate_new_block
  rw [if_neg (by omega), if_pos hpath]

/-- Witness for the amended C5: the first 16-byte allocation on a fresh
allocator, served by a system block at address `block_size`. -/
theorem c5_new_block_witness :
    (16 ≤ max_object_size ∧
      TMAState.init.current_end < TMAState.init.position_in_current + 16) ∧
    alloc TMAState.init 16 (some block_size) = .ok (block_size + block_header_size,
      { current := some block_size
        position_in_current := block_size + block_header_size + align_up 16 alignment
        current_end := block_size + block_size
        current_use_count := 1
        blocks := setBlock (close_current TMAState.init).blocks block_size (some 0) }) :=
  ⟨⟨by decide, by decide⟩, c5_new_block TMAState.init 16 block_size (by decide) (by decide)⟩

/-- C6 counterexample: the pointer returned by `alloc(0)` on a fresh
allocator (a legal `s ≤ max_object_size`) has block offset 0, which is
below `sizeof(block_header)`. -/
theorem c6_counterexample :
    allocPtr (alloc (runOps TMAState.init []) 0 none) = some 0 ∧
    0 % block_size < block_header_size :=
  ⟨rfl, by decide⟩

/-- C6 (amended): for every pointer `p` returned by `alloc(s)` with
`1 ≤ s ≤ max_object_size`, on any state reachable by a sequence of `alloc`
and `free` calls, the offset of `p` within its block lies in
`[sizeof(block_header), block_size - s]` and `p` is `alignment`-aligned. -/
theorem c6_alloc_offset (ops : List TMAOp) (hops : ∀ op ∈ ops, RespAligned op)
    (size : Nat) (resp : Option Nat) (p : Nat)
    (h1 : 1 ≤ size) (h2 : size ≤ max_object_size)
    (hresp : RespAligned (.alloc size resp))
    (hp : allocPtr (alloc (runOps TMAState.init ops) size resp) = some p) :
    block_header_size ≤ p % block_size ∧ p % block_size ≤ block_size - size ∧
    p % alignment = 0 := by
  have hinv := tma_runOps_inv ops hops
  cases h : alloc (runOps TMAState.init ops) size resp with
  | error e =>
    rw [h] at hp
    exact absurd hp (by simp [allocPtr])
  | ok v =>
    obtain ⟨q, st'⟩ := v
    rw [h] at hp
    simp only [allocPtr, Option.some.injEq] at hp
    subst hp
    exact tma_alloc_offset hinv hresp h1 h2 h

/-- Witness for the amended C6: the first 16-byte allocation on a fresh
allocator lands at offset `block_header_size` of its (aligned) block. -/
theorem c6_alloc_offset_witness :
    ((∀ op ∈ ([] : List TMAOp), RespAligned op) ∧ 1 ≤ 16 ∧ 16 ≤ max_object_size ∧
      RespAligned (.alloc 16 (some block_size)) ∧
      allocPtr (alloc (runOps TMAState.init []) 16 (some block_size)) = some 131088) ∧
    (block_header_size ≤ 131088 % block_size ∧
      131088 % block_size ≤ block_size - 16 ∧ 131088 % alignment = 0) :=
  ⟨⟨by decide, by decide, by decide, by decide, rfl⟩,
   c6_alloc_offset [] (by decide) 16 (some block_size) 131088
     (by decide) (by decide) (by decide) rfl⟩

/-- C10: if `alloc(size)` with `size ≤ max_object_size` takes the new-block
path and the underlying aligned block allocation fails, `alloc` raises
`bad_alloc` and the allocator state is unchanged: the throw happens before
`close_current`, so the open block stays open and no previous allocation is
affected. -/
theorem c10_failed_new_block (st : TMAState) (size : Nat)
    (hsz : size ≤ max_object_size)
    (hpath : st.current_end < st.position_in_current + size) :
    alloc st size none = .error .bad_alloc ∧ stepOp st (.alloc size none) = st := by
  have h : alloc st size none = .error .bad_alloc := by
    unfold alloc allocate_new_block
    rw [if_neg (by omega), if_pos hpath]
  exact ⟨h, by simp [stepOp, h]⟩

/-- Witness for C10: a 16-byte allocation on a fresh allocator with the
system allocator out of memory. -/
theorem c10_failed_new_block_witness :
    (16 ≤ max_object_size ∧
      TMAState.init.current_end < TMAState.init.position_in_current + 16) ∧
    (alloc TMAState.init 16 none = .error .bad_alloc ∧
      stepOp TMAState.init (.alloc 16 none) = TMAState.init) :=
  ⟨⟨by decide, by decide⟩, c10_failed_new_block TMAState.init 16 (by decide) (by decide)⟩

/-! ## Codec helper lemmas -/

theorem readLE4_le4 {v : Nat} (hv : v < 2 ^ 32) (rest : List Nat) :
    readLE4 (le4 v ++ rest) = v := by
  show v % 256 + 256 * (v / 256 % 256) + 65536 * (v / 65536 % 256) +
    16777216 * (v / 16777216 % 256) = v
  omega

theorem fit_self {cap : Nat} {bs : List Nat} (h : bs.length = cap) : fit cap bs = bs := by
  unfold fit
  rw [← h, List.take_length, Nat.sub_self, List.replicate_zero, List.append_nil]

theorem totalSize_flatten (l : List (List Nat)) : l.flatten.length = totalSize l :=
  List.length_flatten l

theorem flatten_eq_nil_of_totalSize_zero {l : List (List Nat)} (h : totalSize l = 0) :
    l.flatten = [] := by
  have := totalSize_flatten l
  exact List.eq_nil_of_length_eq_zero (by omega)

theorem headD_take_eq_flatten {segs : List (List Nat)} {n : Nat}
    (hsg : scatter_gather segs = true) (hn : totalSize segs = n) (hle : n ≤ chunk_size) :
    (segs.headD []).take n = segs.flatten := by
  match segs with
  | [] =>
    have : n = 0 := by simpa [totalSize] using hn.symm
    simp [this]
  | [s] =>
    have hs : s.length = n := by simpa [totalSize] using hn
    simp [← hs, List.take_length]
  | s :: t :: rest =>
    have hcs : s.length = chunk_size := by
      have h := hsg
      simp only [scatter_gather, Bool.and_eq_true, decide_eq_true_eq] at h
      exact h.1
    have htail : totalSize (t :: rest) = 0 := by
      have : totalSize (s :: t :: rest) = s.length + totalSize (t :: rest) := by
        simp [totalSize]
      omega
    have hflat : (t :: rest).flatten = [] := flatten_eq_nil_of_totalSize_zero htail
    have hns : n = s.length := by
      have : totalSize (s :: t :: rest) = s.length + totalSize (t :: rest) := by
        simp [totalSize]
      omega
    show (s.take n) = (s :: t :: rest).flatten
    rw [hns, List.take_length, List.flatten_cons, hflat, List.append_nil]

theorem take_set_succ {α : Type} (l : List α) (i : Nat) (b : α) (h : i < l.length) :
    (l.set i b).take (i + 1) = l.take i ++ [b] := by
  rw [List.set_eq_take_append_cons_drop, if_pos h, List.take_append_eq_append_take,
    List.take_take]
  have h1 : (l.take i).length = i := by
    rw [List.length_take]
    omega
  rw [h1]
  have h2 : min (i + 1) i = i := by omega
  rw [h2]
  have h3 : i + 1 - i = 1 := by omega
  rw [h3]
  rfl

theorem writeByte_winv {hs fill b : Nat} {st : WriterState} (hw : WInv hs st) :
    WInv hs (writeByte fill b st) := by
  obtain ⟨h1, h2, h3⟩ := hw
  unfold writeByte
  split
  · rename_i hfull
    show WInv hs ⟨st.done ++ [st.cur], (List.replicate chunk_size fill).set 0 b, 0 + 1⟩
    refine ⟨?_, ?_, ?_⟩
    · simp only [List.length_set, List.length_replicate]
      decide
    · intro hdone
      simp at hdone
    · intro hd hhd
      cases hdone : st.done with
      | nil =>
        rw [hdone] at hhd
        simp only [List.nil_append, List.head?_cons, Option.some.injEq] at hhd
        rw [← hhd, ← hfull]
        exact h2 hdone
      | cons d ds =>
        rw [hdone] at hhd
        simp only [List.cons_append, List.head?_cons, Option.some.injEq] at hhd
        refine h3 hd ?_
        rw [hdone, List.head?_cons, hhd]
  · rename_i hnot
    have hlt : st.off < st.cur.length := by omega
    show WInv hs ⟨st.done, st.cur.set st.off b, st.off + 1⟩
    refine ⟨?_, ?_, ?_⟩
    · simp only [List.length_set]
      omega
    · intro hd
      exact le_trans (h2 hd) (Nat.le_succ _)
    · intro hd hhd
      exact h3 hd hhd

theorem writeByte_joinW {hs fill b : Nat} {st : WriterState} (hw : WInv hs st) :
    joinW (writeByte fill b st) = joinW st ++ [b] := by
  obtain ⟨h1, h2, h3⟩ := hw
  unfold writeByte
  split
  · rename_i hfull
    show joinW ⟨st.done ++ [st.cur], (List.replicate chunk_size fill).set 0 b, 0 + 1⟩ = _
    unfold joinW
    have hcs : (0 : Nat) < chunk_size := by decide
    rw [take_set_succ _ 0 b (by simp only [List.length_replicate]; exact hcs)]
    simp only [List.flatten_append, List.flatten_cons, List.flatten_nil, List.take_zero,
      List.nil_append, List.append_nil]
    rw [hfull, List.take_length, List.append_assoc]
  · rename_i hnot
    have hlt : st.off < st.cur.length := by omega
    show joinW ⟨st.done, st.cur.set st.off b, st.off + 1⟩ = _
    unfold joinW
    rw [take_set_succ _ _ b hlt, List.append_assoc]

theorem writeBytes_joinW {hs fill : Nat} (bs : List Nat) (st : WriterState)
    (hw : WInv hs st) :
    joinW (writeBytes fill st bs) = joinW st ++ bs ∧ WInv hs (writeBytes fill st bs) := by
  induction bs generalizing st with
  | nil => exact ⟨by simp [writeBytes], hw⟩
  | cons b rest ih =>
    have hstep := @writeByte_joinW hs fill b st hw
    have hinv := @writeByte_winv hs fill b st hw
    have h := ih (writeByte fill b st) hinv
    refine ⟨?_, h.2⟩
    show joinW (writeBytes fill (writeByte fill b st) rest) = joinW st ++ b :: rest
    rw [h.1, hstep, List.append_assoc]
    rfl

theorem writeAll_spec (fill hs : Nat) (bs : List Nat) :
    (writeAll fill hs bs).flatten = List.replicate hs fill ++ bs ∧
    ((writeAll fill hs bs).headD []).take hs = List.replicate hs fill ∧
    writeAll fill hs bs ≠ [] := by
  have hw0 : WInv hs ⟨[], List.replicate (max hs chunk_size) fill, hs⟩ := by
    refine ⟨?_, fun _ => le_refl hs, ?_⟩
    · simp only [List.length_replicate]
      exact le_max_left _ _
    · intro hd hhd
      simp at hhd
  have hj0 : joinW ⟨[], List.replicate (max hs chunk_size) fill, hs⟩ =
      List.replicate hs fill := by
    unfold joinW
    simp only [List.flatten_nil, List.nil_append, List.take_replicate]
    rw [Nat.min_eq_left (le_max_left _ _)]
  obtain ⟨hj, hw⟩ := writeBytes_joinW bs ⟨[], List.replicate (max hs chunk_size) fill, hs⟩ hw0
  rw [hj0] at hj
  unfold writeAll
  constructor
  · show ((writeBytes fill ⟨[], List.replicate (max hs chunk_size) fill, hs⟩ bs).done ++
      [(writeBytes fill ⟨[], List.replicate (max hs chunk_size) fill, hs⟩ bs).cur.take
        (writeBytes fill ⟨[], List.replicate (max hs chunk_size) fill, hs⟩ bs).off]).flatten = _
    rw [List.flatten_append, List.flatten_cons, List.flatten_nil, List.append_nil]
    exact hj
  constructor
  · show (((writeBytes fill ⟨[], List.replicate (max hs chunk_size) fill, hs⟩ bs).done ++
      [(writeBytes fill ⟨[], List.replicate (max hs chunk_size) fill, hs⟩ bs).cur.take
        (writeBytes fill ⟨[], List.replicate (max hs chunk_size) fill, hs⟩ bs).off]).headD []).take hs = _
    set st := writeBytes fill ⟨[], List.replicate (max hs chunk_size) fill, hs⟩ bs with hst
    obtain ⟨hw1, hw2, hw3⟩ := hw
    unfold joinW at hj
    cases hdone : st.done with
    | nil =>
      rw [hdone] at hj
      simp only [List.flatten_nil, List.nil_append] at hj
      simp only [hdone, List.nil_append, List.headD_cons]
      rw [hj, List.take_append_eq_append_take, List.take_replicate,
        Nat.min_self, List.length_replicate, Nat.sub_self, List.take_zero, List.append_nil]
    | cons hd tl =>
      rw [hdone] at hj
      have hhd : hs ≤ hd.length := hw3 hd (by rw [hdone, List.head?_cons])
      simp only [hdone, List.cons_append, List.headD_cons]
      have : (hd ++ (tl.flatten ++ st.cur.take st.off)).take hs = hd.take hs :=
        List.take_append_of_le_length hhd
      rw [← this, ← List.append_assoc, ← List.flatten_cons, hj,
        List.take_append_eq_append_take, List.take_replicate,
        Nat.min_self, List.length_replicate, Nat.sub_self, List.take_zero, List.append_nil]
  · show (writeBytes fill ⟨[], List.replicate (max hs chunk_size) fill, hs⟩ bs).done ++
      [(writeBytes fill ⟨[], List.replicate (max hs chunk_size) fill, hs⟩ bs).cur.take
        (writeBytes fill ⟨[], List.replicate (max hs chunk_size) fill, hs⟩ bs).off] ≠ []
    exact List.append_ne_nil_of_right_ne_nil _ (by simp)

theorem scatter_gather_cons {s : List Nat} {rest : List (List Nat)} (hne : rest ≠ [])
    (h : scatter_gather (s :: rest) = true) :
    s.length = chunk_size ∧ scatter_gather rest = true := by
  match rest, hne with
  | t :: ts, _ =>
    have h2 := h
    simp only [scatter_gather, Bool.and_eq_true, decide_eq_true_eq] at h2
    exact h2

theorem totalSize_cons (s : List Nat) (rest : List (List Nat)) :
    totalSize (s :: rest) = s.length + totalSize rest := by
  simp [totalSize]

theorem scatter_gather_head_le {s : List Nat} {rest : List (List Nat)}
    (h : scatter_gather (s :: rest) = true) : s.length ≤ chunk_size := by
  cases rest with
  | nil => simpa [scatter_gather] using h
  | cons t ts =>
    have := (scatter_gather_cons (by simp) h).1
    omega

theorem wire_cons (hc : Nat × List Nat) (l : List (Nat × List Nat)) :
    wire (hc :: l) = le4 hc.1 ++ hc.2 ++ wire l := by
  simp [wire]

theorem wire_nil : wire [] = [] := rfl

theorem le4_length (v : Nat) : (le4 v).length = 4 := rfl

theorem compressBound_lt_flag : compressBound chunk_size < last_chunk_flag := by decide

/-- The chunk walk of `compress` never emits an empty chunk list on
convention-obeying input, and it is well framed. -/
theorem compressChunks_wellFramed (m : LZ4) (segs : List (List Nat)) :
    ∀ (hist : List (List Nat)) (srcLeft : Nat),
    scatter_gather segs = true → srcLeft = totalSize segs →
    srcLeft < last_chunk_flag →
    WellFramed (compressChunks m hist segs srcLeft) := by
  induction segs with
  | nil =>
    intro hist srcLeft hsg hsz hflag
    have h0 : srcLeft = 0 := by simpa [totalSize] using hsz
    subst h0
    unfold compressChunks
    rw [if_neg (by decide)]
    refine ⟨by simp, ?_, ?_⟩
    · intro hc hhc
      simp at hhc
    · intro hc hhc
      simp only [List.getLast?_singleton, Option.some.injEq] at hhc
      rw [← hhc]
      unfold last_chunk_flag
      constructor
      · omega
      · simp only [last_chunk_flag] at hflag
        omega
  | cons s rest ih =>
    intro hist srcLeft hsg hsz hflag
    by_cases hgt : chunk_size < srcLeft
    · have hne : rest ≠ [] := by
        intro hr
        subst hr
        have := scatter_gather_head_le hsg
        rw [totalSize_cons] at hsz
        simp [totalSize] at hsz
        omega
      obtain ⟨hcs, hsgr⟩ := scatter_gather_cons hne hsg
      have hsz' : srcLeft - chunk_size = totalSize rest := by
        rw [totalSize_cons, hcs] at hsz
        omega
      have htail := ih (hist ++ [s]) (srcLeft - chunk_size) hsgr hsz' (by omega)
      obtain ⟨htne, hmid, hlast⟩ := htail
      obtain ⟨t, ts, hts⟩ := List.exists_cons_of_ne_nil htne
      unfold compressChunks
      rw [if_pos hgt]
      rw [hts] at hmid hlast ⊢
      refine ⟨by simp, ?_, ?_⟩
      · intro hc hhc
        rw [List.dropLast_cons₂] at hhc
        rcases List.mem_cons.mp hhc with hhc | hhc
        · subst hhc
          refine ⟨?_, rfl⟩
          have hb := m.comp_bound hist s
          rw [hcs] at hb
          have := compressBound_lt_flag
          omega
        · exact hmid hc hhc
      · intro hc hhc
        rw [List.getLast?_cons_cons] at hhc
        exact hlast hc hhc
    · unfold compressChunks
      rw [if_neg hgt]
      refine ⟨by simp, ?_, ?_⟩
      · intro hc hhc
        simp at hhc
      · intro hc hhc
        simp only [List.getLast?_singleton, Option.some.injEq] at hhc
        rw [← hhc]
        simp only [last_chunk_flag] at hflag ⊢
        constructor
        · omega
        · omega

/-- Equations of the chunk walk, one per branch. -/
theorem compressChunks_nil_eq (m : LZ4) (hist : List (List Nat)) (srcLeft : Nat)
    (h : ¬ chunk_size < srcLeft) :
    compressChunks m hist [] srcLeft = [(last_chunk_flag + srcLeft, m.comp hist [])] := by
  simp only [compressChunks]
  rw [if_neg h]

theorem compressChunks_cons_gt (m : LZ4) (hist : List (List Nat)) (s : List Nat)
    (rest : List (List Nat)) (srcLeft : Nat) (h : chunk_size < srcLeft) :
    compressChunks m hist (s :: rest) srcLeft =
      ((m.comp hist s).length, m.comp hist s) ::
        compressChunks m (hist ++ [s]) rest (srcLeft - chunk_size) := by
  simp only [compressChunks]
  rw [if_pos h]

theorem compressChunks_cons_le (m : LZ4) (hist : List (List Nat)) (s : List Nat)
    (rest : List (List Nat)) (srcLeft : Nat) (h : ¬ chunk_size < srcLeft) :
    compressChunks m hist (s :: rest) srcLeft =
      [(last_chunk_flag + srcLeft, m.comp hist (s.take srcLeft))] := by
  simp only [compressChunks]
  rw [if_neg h]

theorem wire_singleton (v : Nat) (c : List Nat) : wire [(v, c)] = le4 v ++ c := by
  simp [wire]

theorem wire_cons_pair (v : Nat) (c : List Nat) (l : List (Nat × List Nat)) :
    wire ((v, c) :: l) = le4 v ++ (c ++ wire l) := by
  simp [wire]

/-- Walking the headers of a frame produced by the chunk walk, with the
decompression dictionary built up exactly as the compression dictionary was,
recovers the original bytes. -/
theorem decompressChunks_wire (m : LZ4) (segs : List (List Nat)) :
    ∀ (hist : List (List Nat)) (srcLeft fuel : Nat),
    scatter_gather segs = true → srcLeft = totalSize segs →
    srcLeft < last_chunk_flag →
    (wire (compressChunks m hist segs srcLeft)).length ≤ fuel →
    ∃ out, decompressChunks m fuel hist (wire (compressChunks m hist segs srcLeft)) =
        .ok out ∧ out.flatten = segs.flatten := by
  induction segs with
  | nil =>
    intro hist srcLeft fuel hsg hsz hflag hfuel
    have h0 : srcLeft = 0 := by simpa [totalSize] using hsz
    subst h0
    rw [compressChunks_nil_eq m hist 0 (by decide), wire_singleton] at hfuel ⊢
    have hlen : (4 : Nat) ≤ fuel := by
      rw [List.length_append, le4_length] at hfuel
      omega
    obtain ⟨f, rfl⟩ : ∃ f, fuel = f + 1 := ⟨fuel - 1, by omega⟩
    simp only [decompressChunks]
    rw [readLE4_le4 (by decide) _]
    rw [if_neg (by simp [last_chunk_flag])]
    rw [show chunk_header_size = (le4 (last_chunk_flag + 0)).length from rfl, List.drop_left]
    rw [show last_chunk_flag + 0 - last_chunk_flag = 0 by omega]
    rw [m.decomp_comp hist [] 0 (by simp)]
    exact ⟨[fit 0 []], rfl, by simp [fit]⟩
  | cons s rest ih =>
    intro hist srcLeft fuel hsg hsz hflag hfuel
    by_cases hgt : chunk_size < srcLeft
    · -- intermediate chunk
      have hne : rest ≠ [] := by
        intro hr
        subst hr
        have := scatter_gather_head_le hsg
        rw [totalSize_cons] at hsz
        simp [totalSize] at hsz
        omega
      obtain ⟨hcs, hsgr⟩ := scatter_gather_cons hne hsg
      have hsz' : srcLeft - chunk_size = totalSize rest := by
        rw [totalSize_cons, hcs] at hsz
        omega
      rw [compressChunks_cons_gt m hist s rest srcLeft hgt, wire_cons_pair] at hfuel ⊢
      have hblen : (m.comp hist s).length < last_chunk_flag := by
        have hb := m.comp_bound hist s
        rw [hcs] at hb
        have := compressBound_lt_flag
        omega
      have hlen4 : (4 : Nat) ≤ fuel := by
        rw [List.length_append, le4_length] at hfuel
        omega
      obtain ⟨f, rfl⟩ : ∃ f, fuel = f + 1 := ⟨fuel - 1, by omega⟩
      simp only [decompressChunks]
      rw [readLE4_le4 (by simp only [last_chunk_flag] at hblen ⊢; omega) _]
      rw [if_pos hblen]
      rw [show chunk_header_size = (le4 (m.comp hist s).length).length from rfl,
        List.drop_left, List.take_left, List.drop_left]
      rw [m.decomp_comp hist s chunk_size (le_of_eq hcs)]
      have hfuel' : (wire (compressChunks m (hist ++ [s]) rest (srcLeft - chunk_size))).length
          ≤ f := by
        rw [List.length_append, le4_length, List.length_append] at hfuel
        omega
      obtain ⟨out, hout, hflat⟩ :=
        ih (hist ++ [s]) (srcLeft - chunk_size) f hsgr hsz' (by omega) hfuel'
      dsimp only
      rw [hout]
      exact ⟨fit chunk_size s :: out, rfl, by
        rw [List.flatten_cons, fit_self hcs, hflat, List.flatten_cons]⟩
    · -- last chunk
      rw [compressChunks_cons_le m hist s rest srcLeft hgt, wire_singleton] at hfuel ⊢
      have hlen4 : (4 : Nat) ≤ fuel := by
        rw [List.length_append, le4_length] at hfuel
        omega
      obtain ⟨f, rfl⟩ : ∃ f, fuel = f + 1 := ⟨fuel - 1, by omega⟩
      have htake : s.take srcLeft = (s :: rest).flatten :=
        headD_take_eq_flatten hsg hsz.symm (by omega)
      have htlen : (s.take srcLeft).length = srcLeft := by
        rw [htake, totalSize_flatten]
        omega
      simp only [decompressChunks]
      rw [readLE4_le4 (by simp only [last_chunk_flag] at hflag ⊢; omega) _]
      rw [if_neg (by omega)]
      rw [show chunk_header_size = (le4 (last_chunk_flag + srcLeft)).length from rfl,
        List.drop_left]
      rw [show last_chunk_flag + srcLeft - last_chunk_flag = srcLeft by omega]
      rw [m.decomp_comp hist (s.take srcLeft) srcLeft (by omega)]
      exact ⟨[fit srcLeft (s.take srcLeft)], rfl, by
        rw [List.flatten_cons, List.flatten_nil, List.append_nil, fit_self htlen, htake]⟩

theorem totalSize_single (s : List Nat) : totalSize [s] = s.length := by
  simp [totalSize]

/-- On a single input segment of at least 4 bytes, `decompress` computes
exactly what the header walk computes: the explicit fast path for a leading
last-chunk header performs the same single decompression the walk's final
step performs. -/
theorem decompress_single (m : LZ4) (s : List Nat) (h4 : 4 ≤ s.length) :
    decompress m [s] = decompressChunks m s.length [] s := by
  have hts : totalSize [s] = s.length := totalSize_single s
  unfold decompress
  rw [if_neg (by rw [hts]; show ¬ s.length < chunk_header_size; simp only [chunk_header_size]; omega)]
  dsimp only
  by_cases hh : last_chunk_flag ≤ readLE4 s
  · rw [if_pos hh]
    obtain ⟨k, hk⟩ : ∃ k, s.length = k + 1 := ⟨s.length - 1, by omega⟩
    rw [hk]
    simp only [decompressChunks]
    rw [if_neg (not_lt.mpr hh)]
  · rw [if_neg hh, hts]

/-- On a multi-segment input, `decompress` is the header walk over the
flattened bytes. -/
theorem decompress_multi (m : LZ4) (a b : List Nat) (t : List (List Nat))
    (h4 : ¬ totalSize (a :: b :: t) < chunk_header_size) :
    decompress m (a :: b :: t) =
      decompressChunks m (totalSize (a :: b :: t)) [] (a :: b :: t).flatten := by
  unfold decompress
  rw [if_neg h4]

theorem compress_fast_eq (m : LZ4) (fill hs : Nat) (data : List (List Nat))
    (h : compressBound (totalSize data) + hs + chunk_header_size ≤ chunk_size ∧
      totalSize data ≤ chunk_size) :
    compress m fill hs data =
      [List.replicate hs fill ++ le4 (last_chunk_flag + totalSize data) ++
        m.comp [] ((data.headD []).take (totalSize data))] := by
  unfold compress
  rw [if_pos h]

theorem compress_general_eq (m : LZ4) (fill hs : Nat) (data : List (List Nat))
    (h : ¬ (compressBound (totalSize data) + hs + chunk_header_size ≤ chunk_size ∧
      totalSize data ≤ chunk_size)) :
    compress m fill hs data =
      writeAll fill hs (wire (compressChunks m [] data (totalSize data))) := by
  unfold compress
  rw [if_neg h]

theorem wire_length_of_ne_nil {l : List (Nat × List Nat)} (h : l ≠ []) :
    4 ≤ (wire l).length := by
  obtain ⟨hc, t, rfl⟩ := List.exists_cons_of_ne_nil h
  obtain ⟨v, c⟩ := hc
  rw [wire_cons_pair, List.length_append, le4_length]
  omega

/-- C1: for every byte sequence presented in the scatter-gather convention
with total size at most `10 * chunk_size`, decompressing the output of
`compress(0, x)` succeeds and the concatenated output bytes equal `x`.
The statement is for every LZ4 model (any library satisfying the
compress-bound and streaming round-trip contract) and every content `fill`
of freshly allocated buffers. -/
theorem c1_roundtrip (m : LZ4) (fill : Nat) (x : List (List Nat))
    (hsg : scatter_gather x = true) (hn : totalSize x ≤ 10 * chunk_size) :
    ∃ out, decompress m (compress m fill 0 x) = .ok out ∧
      out.flatten = x.flatten := by
  have hflag : totalSize x < last_chunk_flag := by
    have : 10 * chunk_size < last_chunk_flag := by decide
    omega
  by_cases hfast : compressBound (totalSize x) + 0 + chunk_header_size ≤ chunk_size ∧
      totalSize x ≤ chunk_size
  · -- fast path on both sides
    rw [compress_fast_eq m fill 0 x hfast, List.replicate_zero, List.nil_append]
    have htake : (x.headD []).take (totalSize x) = x.flatten :=
      headD_take_eq_flatten hsg rfl hfast.2
    have htlen : ((x.headD []).take (totalSize x)).length = totalSize x := by
      rw [htake, totalSize_flatten]
    have hslen : 4 ≤ (le4 (last_chunk_flag + totalSize x) ++
        m.comp [] ((x.headD []).take (totalSize x))).length := by
      rw [List.length_append, le4_length]
      omega
    rw [decompress_single m _ hslen]
    obtain ⟨k, hk⟩ : ∃ k, (le4 (last_chunk_flag + totalSize x) ++
        m.comp [] ((x.headD []).take (totalSize x))).length = k + 1 :=
      ⟨(le4 (last_chunk_flag + totalSize x) ++
        m.comp [] ((x.headD []).take (totalSize x))).length - 1, by omega⟩
    rw [hk]
    simp only [decompressChunks]
    rw [readLE4_le4 (by simp only [last_chunk_flag] at hflag ⊢; omega) _]
    rw [if_neg (by omega)]
    rw [show chunk_header_size = (le4 (last_chunk_flag + totalSize x)).length from rfl,
      List.drop_left]
    rw [show last_chunk_flag + totalSize x - last_chunk_flag = totalSize x by omega]
    rw [m.decomp_comp [] ((x.headD []).take (totalSize x)) (totalSize x) (by omega)]
    exact ⟨[fit (totalSize x) ((x.headD []).take (totalSize x))], rfl, by
      rw [List.flatten_cons, List.flatten_nil, List.append_nil, fit_self htlen, htake]⟩
  · -- general path
    rw [compress_general_eq m fill 0 x hfast]
    obtain ⟨hflat, hhead, hne⟩ :=
      writeAll_spec fill 0 (wire (compressChunks m [] x (totalSize x)))
    rw [List.replicate_zero, List.nil_append] at hflat
    have hchne : compressChunks m [] x (totalSize x) ≠ [] :=
      (compressChunks_wellFramed m x [] (totalSize x) hsg rfl hflag).1
    have hwlen : 4 ≤ (wire (compressChunks m [] x (totalSize x))).length :=
      wire_length_of_ne_nil hchne
    obtain ⟨out0, hout, hoflat⟩ := decompressChunks_wire m x [] (totalSize x)
      (wire (compressChunks m [] x (totalSize x))).length hsg rfl hflag (le_refl _)
    cases hshape : writeAll fill 0 (wire (compressChunks m [] x (totalSize x))) with
    | nil => exact absurd hshape hne
    | cons s1 t1 =>
      rw [hshape] at hflat
      cases t1 with
      | nil =>
        rw [List.flatten_cons, List.flatten_nil, List.append_nil] at hflat
        subst hflat
        rw [decompress_single m _ (by omega)]
        exact ⟨out0, hout, by rw [hoflat]⟩
      | cons s2 t2 =>
        have htot : totalSize (s1 :: s2 :: t2) =
            (wire (compressChunks m [] x (totalSize x))).length := by
          rw [← totalSize_flatten, hflat]
        rw [decompress_multi m s1 s2 t2 (by
          rw [htot]
          simp only [chunk_header_size]
          omega)]
        rw [hflat, htot]
        exact ⟨out0, hout, by rw [hoflat]⟩

/-- Witness for C1: the one-byte message `0x41` (spec scenario S3), with the
identity LZ4 model. -/
theorem c1_roundtrip_witness :
    (scatter_gather [[65]] = true ∧ totalSize [[65]] ≤ 10 * chunk_size) ∧
    ∃ out, decompress idLZ4 (compress idLZ4 0 0 [[65]]) = .ok out ∧
      out.flatten = ([[65]] : List (List Nat)).flatten :=
  ⟨⟨by decide, by decide⟩, c1_roundtrip idLZ4 0 [[65]] (by decide) (by decide)⟩

/-- C4 counterexample: a 3-byte input is returned as an empty `rcv_buf`
(`return rcv_buf()`, source line 142); `decompress` does not raise a
frame-level error on it. -/
theorem c4_counterexample :
    decompress idLZ4 [[0, 0, 0]] = .ok [] := rfl

/-- C4 (amended): for every input whose total size is strictly less than 4
bytes, `decompress` returns an empty buffer without attempting any
decompression; it does not fail with a frame-level error. -/
theorem c4_short_input (m : LZ4) (data : List (List Nat)) (h : totalSize data < 4) :
    decompress m data = .ok [] := by
  unfold decompress
  rw [if_pos (by simp only [chunk_header_size]; omega)]

/-- Witness for the amended C4: a 3-byte input. -/
theorem c4_short_input_witness :
    totalSize [[0, 0, 0]] < 4 ∧ decompress idLZ4 [[0, 0, 0]] = .ok [] :=
  ⟨by decide, c4_short_input idLZ4 [[0, 0, 0]] (by decide)⟩

/-- C7: every frame produced by `compress(head_space, data)` on
convention-obeying input of 31-bit size consists, after the head space, of a
well-framed chunk sequence: every header before the last has bit 31 clear
and carries the length of the payload that follows it, and there is exactly
one last chunk (bit 31 set), at the end of the frame. -/
theorem c7_framing (m : LZ4) (fill hs : Nat) (data : List (List Nat))
    (hsg : scatter_gather data = true) (hflag : totalSize data < last_chunk_flag) :
    ∃ chunks, WellFramed chunks ∧
      (compress m fill hs data).flatten = List.replicate hs fill ++ wire chunks := by
  by_cases hfast : compressBound (totalSize data) + hs + chunk_header_size ≤ chunk_size ∧
      totalSize data ≤ chunk_size
  · refine ⟨[(last_chunk_flag + totalSize data,
      m.comp [] ((data.headD []).take (totalSize data)))], ?_, ?_⟩
    · refine ⟨by simp, ?_, ?_⟩
      · intro hc hhc
        simp at hhc
      · intro hc hhc
        simp only [List.getLast?_singleton, Option.some.injEq] at hhc
        rw [← hhc]
        simp only [last_chunk_flag] at hflag ⊢
        exact ⟨by omega, by omega⟩
    · rw [compress_fast_eq m fill hs data hfast, wire_singleton]
      rw [List.flatten_cons, List.flatten_nil, List.append_nil, List.append_assoc]
  · refine ⟨compressChunks m [] data (totalSize data),
      compressChunks_wellFramed m data [] (totalSize data) hsg rfl hflag, ?_⟩
    rw [compress_general_eq m fill hs data hfast]
    exact (writeAll_spec fill hs _).1

/-- Witness for C7: the one-byte message with two bytes of head space. -/
theorem c7_framing_witness :
    (scatter_gather [[65]] = true ∧ totalSize [[65]] < last_chunk_flag) ∧
    ∃ chunks, WellFramed chunks ∧
      (compress idLZ4 7 2 [[65]]).flatten = List.replicate 2 7 ++ wire chunks :=
  ⟨⟨by decide, by decide⟩, c7_framing idLZ4 7 2 [[65]] (by decide) (by decide)⟩

/-- C8: for every `head_space ≤ chunk_size - 4` and every input, the first
`head_space` bytes of the first output segment are exactly the bytes the
fresh buffer was allocated with (whatever they are, hence never written by
the codec), and the whole codec output (headers and compressed bytes) starts
at offset `head_space`: the flattened output is the untouched head-space
prefix followed by a payload that does not depend on the buffer fill. -/
theorem c8_head_space (m : LZ4) (hs : Nat) (data : List (List Nat))
    (hhs : hs ≤ chunk_size - 4) :
    (∀ fill, ((compress m fill hs data).headD []).take hs = List.replicate hs fill) ∧
    ∃ w, ∀ fill, (compress m fill hs data).flatten = List.replicate hs fill ++ w := by
  constructor
  · intro fill
    by_cases hfast : compressBound (totalSize data) + hs + chunk_header_size ≤ chunk_size ∧
        totalSize data ≤ chunk_size
    · rw [compress_fast_eq m fill hs data hfast]
      rw [List.headD_cons, List.append_assoc, List.take_append_eq_append_take,
        List.take_replicate, Nat.min_self, List.length_replicate, Nat.sub_self,
        List.take_zero, List.append_nil]
    · rw [compress_general_eq m fill hs data hfast]
      exact (writeAll_spec fill hs _).2.1
  · by_cases hfast : compressBound (totalSize data) + hs + chunk_header_size ≤ chunk_size ∧
        totalSize data ≤ chunk_size
    · refine ⟨le4 (last_chunk_flag + totalSize data) ++
        m.comp [] ((data.headD []).take (totalSize data)), fun fill => ?_⟩
      rw [compress_fast_eq m fill hs data hfast]
      rw [List.flatten_cons, List.flatten_nil, List.append_nil, List.append_assoc]
    · refine ⟨wire (compressChunks m [] data (totalSize data)), fun fill => ?_⟩
      rw [compress_general_eq m fill hs data hfast]
      exact (writeAll_spec fill hs _).1

/-- Witness for C8: two bytes of input, five bytes of head space. -/
theorem c8_head_space_witness :
    (5 : Nat) ≤ chunk_size - 4 ∧
    ((∀ fill, ((compress idLZ4 fill 5 [[65, 66]]).headD []).take 5 =
        List.replicate 5 fill) ∧
      ∃ w, ∀ fill, (compress idLZ4 fill 5 [[65, 66]]).flatten =
        List.replicate 5 fill ++ w) :=
  ⟨by decide, c8_head_space idLZ4 5 [[65, 66]] (by decide)⟩

/-- C9: a coroutine body that completes with an uncaught exception `e`
reaches `unhandled_exception`, which captures the in-flight exception and
forwards it to the embedded promise's `set_exception`, so the future
obtained from `get_return_object` resolves to ready-with-exception carrying
`e` and not to ready-with-value. -/
theorem c9_unhandled_exception {α ε : Type} (e : ε) :
    @coroutine_outcome α ε (Except.error e) = FutureState.ready_exception e ∧
    ∀ v : α, @coroutine_outcome α ε (Except.error e) ≠ FutureState.ready_value v :=
  ⟨rfl, fun _ h => FutureState.noConfusion h⟩
